import Mathlib

/-
Verification of the optimizer module `mrmustard/utils/training.py`.

The Python module is shallowly embedded below:
  * scalar losses and learning rates become rational numbers (exact arithmetic);
  * the mutable `loss_history` list becomes explicit state passing;
  * the numeric backend (`math.*`) is an external collaborator and is
    represented by explicit function parameters or a record of operations;
  * the `while` loop of `minimize` is modelled with explicit fuel: all the
    properties proved about it are independent of the fuel whenever the loop
    actually terminates.
-/

namespace MrMustard

/-- Embedding of the convergence sum computed inside `Optimizer.should_stop`:
`sum(abs(loss_history[-i - 1] - loss_history[-i]) for i in range(1, 20))`,
where negative Python indices `-k` denote `len - k`. -/
def stability_sum (loss_history : List ℚ) : ℚ :=
  ∑ i ∈ Finset.Icc 1 19,
    |loss_history.getD (loss_history.length - i - 1) 0 -
      loss_history.getD (loss_history.length - i) 0|

/-- Embedding of `Optimizer.should_stop`.  The Python method reads
`self.loss_history` and the `max_steps` argument; here the history is passed
explicitly.  `1e-6` becomes the exact rational `1 / 1000000`. -/
def should_stop (loss_history : List ℚ) (max_steps : ℤ) : Bool :=
  if max_steps ≠ 0 ∧ (loss_history.length : ℤ) > max_steps then true
  else if 20 < loss_history.length ∧ stability_sum loss_history < 1 / 1000000 then true
  else false

/-- The three states of the optimization loop named by the specification. -/
inductive StopReason where
  | running
  | converged
  | stepLimitReached
deriving DecidableEq

/-- Stop reason following the specification's state machine: the step-limit
test is performed first, then the stability test, mirroring the branch order
of `Optimizer.should_stop`. -/
def stop_reason (loss_history : List ℚ) (max_steps : ℤ) : StopReason :=
  if max_steps ≠ 0 ∧ (loss_history.length : ℤ) > max_steps then .stepLimitReached
  else if 20 < loss_history.length ∧ stability_sum loss_history < 1 / 1000000 then .converged
  else .running

/-- Embedding of the `Optimizer` object state: the three learning rates set in
`__init__` and the mutable `loss_history`. -/
structure Optimizer where
  symplectic_lr : ℚ
  orthogonal_lr : ℚ
  euclidean_lr : ℚ
  loss_history : List ℚ

/-- Embedding of `Optimizer.__init__`: records the learning rates and seeds
`loss_history` with the single sentinel entry `0`. -/
def Optimizer.init (symplectic_lr orthogonal_lr euclidean_lr : ℚ) : Optimizer :=
  { symplectic_lr := symplectic_lr
    orthogonal_lr := orthogonal_lr
    euclidean_lr := euclidean_lr
    loss_history := [0] }

/-- Loop body state for `minimize`: everything the backend touches in one
iteration (the parameters, the autodiff state, ...) is abstracted into a
world type `W`; `step` performs `loss_and_gradients` followed by the three
parameter updates and returns the new world together with the scalar loss. -/
def minimize_aux {W : Type} (step : W → W × ℚ) (max_steps : ℤ) :
    ℕ → W → List ℚ → W × List ℚ
  | 0, w, history => (w, history)
  | fuel + 1, w, history =>
    if should_stop history max_steps then (w, history)
    else
      let wl := step w
      minimize_aux step max_steps fuel wl.1 (history ++ [wl.2])

/-- Number of loop iterations actually executed by `minimize_aux` (the number
of times the `while` body runs before the guard stops it or fuel runs out). -/
def minimize_iters {W : Type} (step : W → W × ℚ) (max_steps : ℤ) :
    ℕ → W → List ℚ → ℕ
  | 0, _, _ => 0
  | fuel + 1, w, history =>
    if should_stop history max_steps then 0
    else
      let wl := step w
      minimize_iters step max_steps fuel wl.1 (history ++ [wl.2]) + 1

/-- Embedding of `Optimizer.minimize`: runs the guarded loop, appending one
loss per executed iteration to `loss_history` (which is never reset). -/
def Optimizer.minimize {W : Type} (opt : Optimizer) (step : W → W × ℚ) (w : W)
    (max_steps : ℤ) (fuel : ℕ) : Optimizer × W :=
  let r := minimize_aux step max_steps fuel w opt.loss_history
  ({ opt with loss_history := r.2 }, r.1)

/-- Embedding of the body of the `for item in items` loop of
`extract_parameters`: one item's reported parameters are folded into the
insertion-ordered dictionary `params_dict` (an association list keyed by
content hash).  `hash_tensor` returns `none` where the Python backend raises
`TypeError`; the `try` block wraps the whole inner loop, so a `none` makes the
function return the dictionary as accumulated so far, dropping the remaining
parameters of this item. -/
def process_item {P H : Type} [DecidableEq H] (hash_tensor : P → Option H) :
    List P → List (H × P) → List (H × P)
  | [], params_dict => params_dict
  | p :: ps, params_dict =>
    match hash_tensor p with
    | none => params_dict
    | some h =>
      if params_dict.any fun e => decide (e.1 = h) then
        process_item hash_tensor ps params_dict
      else
        process_item hash_tensor ps (params_dict ++ [(h, p)])

/-- Embedding of `extract_parameters(items, kind)`.  An item is represented by
the mapping `kind ↦ reported parameter list` (its `trainable_parameters`
attribute); the result is `list(params_dict.values())`, i.e. the dictionary
values in insertion order. -/
def extract_parameters {P H K : Type} [DecidableEq H] (hash_tensor : P → Option H)
    (items : List (K → List P)) (kind : K) : List P :=
  (items.foldl (fun params_dict item => process_item hash_tensor (item kind) params_dict)
    []).map Prod.snd

/-- Modelled from the spec: "A parameter is included in the output the first
time its content hash is seen; subsequent occurrences (same hash, from the
same or a different object) are silently skipped", in "first-seen order
across objects", over the concatenation of all reported parameters.  `seen`
is the set of hashes already seen, as a list. -/
def first_seen_dedup {P H : Type} [DecidableEq H] (hash_tensor : P → Option H) :
    List P → List H → List P
  | [], _ => []
  | p :: ps, seen =>
    match hash_tensor p with
    | none => first_seen_dedup hash_tensor ps seen
    | some h =>
      if h ∈ seen then first_seen_dedup hash_tensor ps seen
      else p :: first_seen_dedup hash_tensor ps (h :: seen)

/-- A hash that fails on `0` and succeeds on everything else; used as the
concrete unhashable/hashable split in witnesses and counterexamples. -/
def nat_hash : ℕ → Option ℕ := fun n => if n = 0 then none else some n

/-- An object reporting an unhashable parameter first, then a hashable one. -/
def item_mixed : Unit → List ℕ := fun _ => [0, 1]

/-- The linear-algebra capabilities consumed by `update_symplectic` and
`update_orthogonal` that the backend provides (`math.expm` and
`math.riemann_to_symplectic`); matrix multiplication, transposition,
subtraction and scalar multiplication are the standard ones.  The scalar type
is a parameter so that concrete witnesses can compute over `ℚ` while the
manifold-preservation theorem instantiates `expm` with the genuine matrix
exponential over `ℝ`. -/
structure MathBackend (R : Type) (n : ℕ) where
  expm : Matrix (Fin n) (Fin n) R → Matrix (Fin n) (Fin n) R
  riemann_to_symplectic :
    Matrix (Fin n) (Fin n) R → Matrix (Fin n) (Fin n) R → Matrix (Fin n) (Fin n) R

/-- Embedding of `update_symplectic`: for each `(S, dS_riemann)` pair of
`zip(symplectic_params, symplectic_grads)` the code computes
`Y = riemann_to_symplectic(S, dS)`, `YT = transpose(Y)` and assigns
`S · expm(-lr · YT) · expm(-lr · (Y - YT))` in place; the in-place assignment
becomes returning the updated list (parameters beyond the zipped prefix are
left unchanged, exactly as the Python loop leaves them unassigned). -/
def update_symplectic {R : Type} [Field R] {n : ℕ} (math : MathBackend R n)
    (symplectic_params symplectic_grads : List (Matrix (Fin n) (Fin n) R))
    (symplectic_lr : R) : List (Matrix (Fin n) (Fin n) R) :=
  (List.zipWith
    (fun S dS_riemann =>
      let Y := math.riemann_to_symplectic S dS_riemann
      let YT := Y.transpose
      S * (math.expm ((-symplectic_lr) • YT) *
        math.expm ((-symplectic_lr) • (Y - YT))))
    symplectic_params symplectic_grads)
  ++ symplectic_params.drop symplectic_grads.length

/-- Embedding of `update_orthogonal`: for each `(O, dO_riemann)` pair the code
computes `D = 0.5 · (dO - O · dOᵗ · O)` and assigns
`O · expm(lr · (Dᵗ · O))` in place. -/
def update_orthogonal {R : Type} [Field R] {n : ℕ} (math : MathBackend R n)
    (orthogonal_params orthogonal_grads : List (Matrix (Fin n) (Fin n) R))
    (orthogonal_lr : R) : List (Matrix (Fin n) (Fin n) R) :=
  (List.zipWith
    (fun O dO_riemann =>
      let D := ((1 : R) / 2) • (dO_riemann - O * dO_riemann.transpose * O)
      O * math.expm (orthogonal_lr • (D.transpose * O)))
    orthogonal_params orthogonal_grads)
  ++ orthogonal_params.drop orthogonal_grads.length

/-- A small computable backend over `ℚ` used by the formula witnesses (any
function may stand in for `expm` there, since the per-pair formula holds for
every backend). -/
def toy_backend : MathBackend ℚ 1 :=
  { expm := fun A => A + 1
    riemann_to_symplectic := fun S dS => S * dS }

/-- The list `List.replicate n 0` reads as `0` at every index under `getD`. -/
theorem getD_replicate_zero (n k : ℕ) : (List.replicate n (0 : ℚ)).getD k 0 = 0 := by
  induction n generalizing k with
  | zero => simp [List.getD]
  | succ n ih =>
    cases k with
    | zero => simp [List.replicate_succ]
    | succ k => rw [List.replicate_succ, List.getD_cons_succ]; exact ih k

/-- A constant history has stability sum `0`. -/
theorem stability_sum_replicate_zero (n : ℕ) :
    stability_sum (List.replicate n (0 : ℚ)) = 0 := by
  unfold stability_sum
  refine Finset.sum_eq_zero fun i _ => ?_
  simp [getD_replicate_zero]

/-- An unhashable parameter aborts the processing of the rest of its item. -/
theorem process_item_append_of_none {P H : Type} [DecidableEq H]
    (hash_tensor : P → Option H) (p : P) (hp : hash_tensor p = none) :
    ∀ (ps post : List P) (params_dict : List (H × P)),
      process_item hash_tensor (ps ++ p :: post) params_dict =
        process_item hash_tensor ps params_dict := by
  intro ps post
  induction ps with
  | nil => intro d; simp [process_item, hp]
  | cons q ps ih =>
    intro d
    cases hq : hash_tensor q with
    | none => simp [process_item, hq]
    | some h =>
      simp only [List.cons_append, process_item, hq]
      split
      · exact ih _
      · exact ih _

/-- When every parameter of a prefix is hashable, processing distributes over
list concatenation. -/
theorem process_item_append_of_hashable {P H : Type} [DecidableEq H]
    (hash_tensor : P → Option H) :
    ∀ (ps qs : List P) (params_dict : List (H × P)),
      (∀ p ∈ ps, (hash_tensor p).isSome = true) →
      process_item hash_tensor (ps ++ qs) params_dict =
        process_item hash_tensor qs (process_item hash_tensor ps params_dict) := by
  intro ps
  induction ps with
  | nil => intro qs d _; simp [process_item]
  | cons r ps ih =>
    intro qs d hall
    obtain ⟨h, hh⟩ := Option.isSome_iff_exists.mp (hall r (by simp))
    simp only [List.cons_append, process_item, hh]
    split
    · exact ih qs d fun p hp => hall p (by simp [hp])
    · exact ih qs _ fun p hp => hall p (by simp [hp])

/-- The outcome of `first_seen_dedup` depends only on the membership of
`seen`, not on its order. -/
theorem first_seen_dedup_congr {P H : Type} [DecidableEq H] (hash_tensor : P → Option H) :
    ∀ (ps : List P) (seen seen' : List H),
      (∀ h, h ∈ seen ↔ h ∈ seen') →
      first_seen_dedup hash_tensor ps seen = first_seen_dedup hash_tensor ps seen' := by
  intro ps
  induction ps with
  | nil => intro _ _ _; rfl
  | cons p ps ih =>
    intro seen seen' hiff
    cases hp : hash_tensor p with
    | none => simp only [first_seen_dedup, hp]; exact ih _ _ hiff
    | some h =>
      simp only [first_seen_dedup, hp]
      by_cases hmem : h ∈ seen
      · rw [if_pos hmem, if_pos ((hiff h).mp hmem)]
        exact ih _ _ hiff
      · rw [if_neg hmem, if_neg fun hc => hmem ((hiff h).mpr hc)]
        exact congrArg (p :: ·)
          (ih _ _ fun x => by simp only [List.mem_cons]; rw [hiff x])

/-- On all-hashable input, the dictionary built by `process_item` holds, in
insertion order, exactly the first-seen-deduplicated parameters. -/
theorem process_item_map_snd {P H : Type} [DecidableEq H] (hash_tensor : P → Option H) :
    ∀ (ps : List P) (params_dict : List (H × P)),
      (∀ p ∈ ps, (hash_tensor p).isSome = true) →
      (process_item hash_tensor ps params_dict).map Prod.snd =
        params_dict.map Prod.snd ++
          first_seen_dedup hash_tensor ps (params_dict.map Prod.fst) := by
  intro ps
  induction ps with
  | nil => intro d _; simp [process_item, first_seen_dedup]
  | cons p ps ih =>
    intro d hall
    obtain ⟨h, hh⟩ := Option.isSome_iff_exists.mp (hall p (by simp))
    simp only [process_item, first_seen_dedup, hh]
    by_cases hmem : h ∈ d.map Prod.fst
    · have hany : (d.any fun e => decide (e.1 = h)) = true := by
        obtain ⟨e, he, hfst⟩ := List.mem_map.mp hmem
        exact List.any_eq_true.mpr ⟨e, he, by simp [hfst]⟩
      rw [if_pos hany, if_pos hmem]
      exact ih d fun r hr => hall r (by simp [hr])
    · have hany : ¬(d.any fun e => decide (e.1 = h)) = true := by
        intro hc
        obtain ⟨e, he, hdec⟩ := List.any_eq_true.mp hc
        exact hmem (List.mem_map.mpr ⟨e, he, by simpa using hdec⟩)
      rw [if_neg hany, if_neg hmem]
      rw [ih (d ++ [(h, p)]) fun r hr => hall r (by simp [hr])]
      rw [first_seen_dedup_congr hash_tensor ps ((d ++ [(h, p)]).map Prod.fst)
        (h :: d.map Prod.fst) (by intro x; simp [or_comm])]
      simp

/-- Accumulation behaviour of the `minimize` loop: the history it returns is
the input history extended by exactly one appended loss per executed
iteration, for every fuel bound. -/
theorem minimize_aux_append {W : Type} (step : W → W × ℚ) (max_steps : ℤ) :
    ∀ (fuel : ℕ) (w : W) (history : List ℚ),
      ∃ tail : List ℚ,
        (minimize_aux step max_steps fuel w history).2 = history ++ tail ∧
        tail.length = minimize_iters step max_steps fuel w history := by
  intro fuel
  induction fuel with
  | zero =>
    intro w history
    exact ⟨[], by simp [minimize_aux], by simp [minimize_iters]⟩
  | succ n ih =>
    intro w history
    cases hs : should_stop history max_steps with
    | true => exact ⟨[], by simp [minimize_aux, hs], by simp [minimize_iters, hs]⟩
    | false =>
      obtain ⟨t, ht1, ht2⟩ := ih (step w).1 (history ++ [(step w).2])
      refine ⟨(step w).2 :: t, ?_, ?_⟩
      · simp only [minimize_aux, hs, Bool.false_eq_true, if_false]
        rw [ht1]
        simp
      · simp only [minimize_iters, hs, Bool.false_eq_true, if_false]
        rw [← ht2]
        simp

/-- Claim C2: the step-limit branch of `should_stop` fires exactly when
`max_steps ≠ 0` and the number of recorded losses exceeds `max_steps`; with
`max_steps = 0` the step limit never fires; and when neither the step limit
nor the stability criterion holds, `should_stop` returns `false`
(the `RUNNING` state of the specification). -/
theorem should_stop_step_limit_characterization :
    ∀ (loss_history : List ℚ) (max_steps : ℤ),
      (should_stop loss_history max_steps = true ↔
        stop_reason loss_history max_steps ≠ StopReason.running) ∧
      (stop_reason loss_history max_steps = StopReason.stepLimitReached ↔
        max_steps ≠ 0 ∧ (loss_history.length : ℤ) > max_steps) ∧
      (max_steps = 0 → stop_reason loss_history max_steps ≠ StopReason.stepLimitReached) ∧
      (¬(max_steps ≠ 0 ∧ (loss_history.length : ℤ) > max_steps) →
        ¬(20 < loss_history.length ∧ stability_sum loss_history < 1 / 1000000) →
        should_stop loss_history max_steps = false) := by
  intro l ms
  unfold should_stop stop_reason
  refine ⟨?_, ?_, ?_, ?_⟩ <;> split_ifs with h1 h2 <;> simp_all

/-- Witness for C2: six recorded losses with `max_steps = 5` stop the loop,
ten recorded losses with `max_steps = 0` do not. -/
theorem should_stop_step_limit_characterization_witness :
    should_stop (List.replicate 6 (0 : ℚ)) 5 = true ∧
    should_stop (List.replicate 10 (0 : ℚ)) 0 = false := by
  constructor
  · have h := should_stop_step_limit_characterization (List.replicate 6 (0 : ℚ)) 5
    have hreason : stop_reason (List.replicate 6 (0 : ℚ)) 5 = StopReason.stepLimitReached :=
      h.2.1.mpr ⟨by norm_num, by simp⟩
    exact h.1.mpr (by rw [hreason]; simp)
  · exact (should_stop_step_limit_characterization (List.replicate 10 (0 : ℚ)) 0).2.2.2
      (by simp) (by simp)

/-- Claim C1 is false as stated: with exactly 20 recorded losses, all equal
(so that the sum of absolute successive differences over the most recent 20
entries is `0 < 1e-6`) and `max_steps = 0`, `should_stop` still returns
`false`, because the code requires strictly more than 20 recorded losses. -/
theorem twenty_stable_losses_do_not_stop :
    20 ≤ (List.replicate 20 (0 : ℚ)).length ∧
    stability_sum (List.replicate 20 (0 : ℚ)) < 1 / 1000000 ∧
    should_stop (List.replicate 20 (0 : ℚ)) 0 = false := by
  refine ⟨by simp, ?_, ?_⟩
  · rw [stability_sum_replicate_zero]; norm_num
  · simp [should_stop]

/-- Claim C1 (amended): for every `loss_history` with strictly more than 20
recorded entries whose sum of absolute successive differences over the most
recent 20 entries is below `1e-6`, `should_stop` returns `true`, regardless
of `max_steps`. -/
theorem should_stop_converged_of_stable :
    ∀ (loss_history : List ℚ) (max_steps : ℤ),
      20 < loss_history.length →
      stability_sum loss_history < 1 / 1000000 →
      should_stop loss_history max_steps = true := by
  intro l ms h1 h2
  unfold should_stop
  split_ifs with ha hb
  · rfl
  · rfl
  · exact absurd ⟨h1, h2⟩ hb

/-- Witness for the amended C1: 21 equal losses stop the loop even with
`max_steps = 0`. -/
theorem should_stop_converged_of_stable_witness :
    should_stop (List.replicate 21 (0 : ℚ)) 0 = true :=
  should_stop_converged_of_stable (List.replicate 21 0) 0 (by simp)
    (by rw [stability_sum_replicate_zero]; norm_num)

/-- Claim C8: `loss_history` is seeded with the single sentinel entry `0` at
construction; every `minimize` call only appends to it, one entry per loop
iteration actually executed (so it is never reset between calls); and it can
never become empty. -/
theorem loss_history_invariants :
    (∀ slr olr elr : ℚ, (Optimizer.init slr olr elr).loss_history = [0]) ∧
    (∀ (W : Type) (opt : Optimizer) (step : W → W × ℚ) (w : W) (max_steps : ℤ) (fuel : ℕ),
      ∃ tail : List ℚ,
        (opt.minimize step w max_steps fuel).1.loss_history = opt.loss_history ++ tail ∧
        tail.length = minimize_iters step max_steps fuel w opt.loss_history) ∧
    (∀ (W : Type) (opt : Optimizer) (step : W → W × ℚ) (w : W) (max_steps : ℤ) (fuel : ℕ),
      opt.loss_history ≠ [] →
      (opt.minimize step w max_steps fuel).1.loss_history ≠ []) := by
  refine ⟨fun _ _ _ => rfl, ?_, ?_⟩
  · intro W opt step w ms fuel
    obtain ⟨t, ht1, ht2⟩ := minimize_aux_append step ms fuel w opt.loss_history
    exact ⟨t, by simp [Optimizer.minimize, ht1], ht2⟩
  · intro W opt step w ms fuel hne
    obtain ⟨t, ht1, _⟩ := minimize_aux_append step ms fuel w opt.loss_history
    simp only [Optimizer.minimize, ht1]
    exact fun hc => hne (List.append_eq_nil.mp hc).1

/-- Witness for C8: a freshly constructed optimizer has history `[0]`, and
after a `minimize` call the history is still nonempty. -/
theorem loss_history_invariants_witness :
    (Optimizer.init 1 1 1).loss_history = [0] ∧
    ((Optimizer.init 1 1 1).minimize (fun w : Unit => (w, 5)) () 0 3).1.loss_history ≠ [] :=
  ⟨loss_history_invariants.1 1 1 1,
    loss_history_invariants.2.2 Unit (Optimizer.init 1 1 1) (fun w => (w, 5)) () 0 3
      (by simp [Optimizer.init])⟩

/-- Claim C10: for every negative `max_steps`, `should_stop` is already true
on a freshly constructed optimizer (the seeded history has length 1, which
exceeds any negative bound), so `minimize` executes zero loop iterations and
leaves `loss_history` equal to the sentinel `[0]`. -/
theorem minimize_noop_of_negative_max_steps :
    ∀ max_steps : ℤ, max_steps < 0 →
    ∀ (slr olr elr : ℚ) (W : Type) (step : W → W × ℚ) (w : W) (fuel : ℕ),
      should_stop (Optimizer.init slr olr elr).loss_history max_steps = true ∧
      ((Optimizer.init slr olr elr).minimize step w max_steps fuel).1.loss_history = [0] ∧
      minimize_iters step max_steps fuel w (Optimizer.init slr olr elr).loss_history = 0 := by
  intro ms hms slr olr elr W step w fuel
  have hcond : ms ≠ 0 ∧ (([(0 : ℚ)].length : ℤ) > ms) := ⟨by omega, by simp; omega⟩
  have hstop : should_stop [(0 : ℚ)] ms = true := by
    unfold should_stop
    rw [if_pos hcond]
  refine ⟨hstop, ?_, ?_⟩
  · cases fuel with
    | zero => simp [Optimizer.minimize, minimize_aux, Optimizer.init]
    | succ n => simp [Optimizer.minimize, minimize_aux, Optimizer.init, hstop]
  · cases fuel with
    | zero => simp [minimize_iters, Optimizer.init]
    | succ n => simp [minimize_iters, Optimizer.init, hstop]

/-- Witness for C10: `max_steps = -1` on a fresh optimizer stops immediately. -/
theorem minimize_noop_of_negative_max_steps_witness :
    should_stop (Optimizer.init 1 1 1).loss_history (-1) = true ∧
    ((Optimizer.init 1 1 1).minimize (fun w : Unit => (w, 5)) () (-1) 3).1.loss_history = [0] ∧
    minimize_iters (fun w : Unit => (w, 5)) (-1) 3 () (Optimizer.init 1 1 1).loss_history = 0 :=
  minimize_noop_of_negative_max_steps (-1) (by norm_num) 1 1 1 Unit (fun w => (w, 5)) () 3

/-- Claim C9: if hashing one parameter of an object fails, `extract_parameters`
abandons all remaining parameters reported by that object (the output is the
same as if the object had reported only the parameters before the failing
one), while keeping the entries recorded before the failure and continuing
with the subsequent objects. -/
theorem extract_abandons_rest_of_item :
    ∀ (P H K : Type) [DecidableEq H] (hash_tensor : P → Option H) (p : P),
      hash_tensor p = none →
      ∀ (pre post : List P) (items1 items2 : List (K → List P)) (kind : K),
        extract_parameters hash_tensor
            (items1 ++ (fun _ => pre ++ p :: post) :: items2) kind =
          extract_parameters hash_tensor (items1 ++ (fun _ => pre) :: items2) kind := by
  intro P H K _inst ht p hp pre post items1 items2 kind
  unfold extract_parameters
  rw [List.foldl_append, List.foldl_append]
  simp only [List.foldl_cons]
  rw [process_item_append_of_none ht p hp]

/-- Witness for C9: with the unhashable parameter `0` in the middle of the
first object, the rest of that object (`2`) is dropped, parameters recorded
before it (`1`) are kept, and the second object (`3`) is still processed. -/
theorem extract_abandons_rest_of_item_witness :
    extract_parameters nat_hash
        ([] ++ (fun _ : Unit => [1] ++ 0 :: [2]) :: [fun _ => [3]]) () =
      extract_parameters nat_hash ([] ++ (fun _ : Unit => [1]) :: [fun _ => [3]]) () ∧
    extract_parameters nat_hash
        ([] ++ (fun _ : Unit => [1] ++ 0 :: [2]) :: [fun _ => [3]]) () = [1, 3] :=
  ⟨extract_abandons_rest_of_item ℕ ℕ Unit nat_hash 0 rfl [1] [2] [] [fun _ => [3]] (),
    by decide⟩

/-- Claim C3 is false as stated: an object reporting the unhashable parameter
`0` first and the hashable parameter `1` second yields an empty extraction
result, not a one-element one, because the failure aborts the whole item. -/
theorem unhashable_first_yields_empty :
    nat_hash 0 = none ∧ (nat_hash 1).isSome = true ∧
    extract_parameters nat_hash [item_mixed] () = [] ∧
    (extract_parameters nat_hash [item_mixed] ()).length ≠ 1 := by
  refine ⟨rfl, rfl, by decide, by decide⟩

/-- Claim C3 (amended): a failed hash makes `extract_parameters` skip the
failing parameter together with the rest of that object's parameters and move
on to the next object, without raising.  An object reporting a hashable
parameter followed by an unhashable one yields a one-element result, while
the opposite order yields an empty result. -/
theorem extract_skips_unhashable_and_rest :
    ∀ (P H K : Type) [DecidableEq H] (hash_tensor : P → Option H) (q p : P),
      (hash_tensor q).isSome = true → hash_tensor p = none →
      ∀ kind : K,
        extract_parameters hash_tensor [fun _ => [q, p]] kind = [q] ∧
        extract_parameters hash_tensor [fun _ => [p, q]] kind = [] := by
  intro P H K _inst ht q p hq hp kind
  obtain ⟨h, hh⟩ := Option.isSome_iff_exists.mp hq
  constructor
  · unfold extract_parameters
    simp [process_item, hh, hp]
  · unfold extract_parameters
    simp [process_item, hp]

/-- Witness for the amended C3: hashable-then-unhashable gives `[1]`,
unhashable-then-hashable gives `[]`. -/
theorem extract_skips_unhashable_and_rest_witness :
    extract_parameters nat_hash [fun _ : Unit => [1, 0]] () = [1] ∧
    extract_parameters nat_hash [fun _ : Unit => [0, 1]] () = [] :=
  extract_skips_unhashable_and_rest ℕ ℕ Unit nat_hash 1 0 rfl rfl ()

/-- Claim C4: when every reported parameter is hashable, `extract_parameters`
returns exactly the first-seen-deduplicated parameters, in first-seen order
across objects: one entry per distinct content hash, taken from whichever
object reported it first. -/
theorem extract_parameters_dedup :
    ∀ (P H K : Type) [DecidableEq H] (hash_tensor : P → Option H)
      (items : List (K → List P)) (kind : K),
      (∀ item ∈ items, ∀ p ∈ item kind, (hash_tensor p).isSome = true) →
      extract_parameters hash_tensor items kind =
        first_seen_dedup hash_tensor ((items.map fun item => item kind).flatten) [] := by
  intro P H K _inst ht items kind hall
  unfold extract_parameters
  have key : ∀ (its : List (K → List P)) (d : List (H × P)),
      (∀ item ∈ its, ∀ p ∈ item kind, (ht p).isSome = true) →
      its.foldl (fun params_dict item => process_item ht (item kind) params_dict) d =
        process_item ht ((its.map fun item => item kind).flatten) d := by
    intro its
    induction its with
    | nil => intro d _; simp [process_item]
    | cons it its ih =>
      intro d hits
      rw [List.foldl_cons, List.map_cons, List.flatten_cons,
        process_item_append_of_hashable ht (it kind) _ d (hits it (by simp)),
        ih _ fun item hm p hp => hits item (by simp [hm]) p hp]
  rw [key items [] hall]
  have := process_item_map_snd ht ((items.map fun item => item kind).flatten) []
    (by
      intro p hp
      obtain ⟨l, hl, hpl⟩ := List.mem_flatten.mp hp
      obtain ⟨item, hitem, rfl⟩ := List.mem_map.mp hl
      exact hall item hitem p hpl)
  simpa using this

/-- Witness for C4: two objects sharing the hash of parameter `2`; the output
keeps the first occurrence of each hash, in first-seen order. -/
theorem extract_parameters_dedup_witness :
    extract_parameters nat_hash [fun _ : Unit => [1, 2], fun _ => [2, 3]] () =
      first_seen_dedup nat_hash
        (([fun _ : Unit => [1, 2], fun _ => [2, 3]].map fun item => item ()).flatten) [] ∧
    extract_parameters nat_hash [fun _ : Unit => [1, 2], fun _ => [2, 3]] () = [1, 2, 3] :=
  ⟨extract_parameters_dedup ℕ ℕ Unit nat_hash [fun _ => [1, 2], fun _ => [2, 3]] ()
      (by
        intro item hitem p hp
        simp only [List.mem_cons, List.not_mem_nil, or_false] at hitem
        rcases hitem with rfl | rfl <;> simp_all [nat_hash] <;>
          rcases hp with rfl | rfl <;> decide),
    by decide⟩

/-- Claim C5: at every zipped position, `update_symplectic` stores
`S · expm(-η · Yᵀ) · expm(-η · (Y - Yᵀ))` with `Y = riemann_to_symplectic S dS`,
the two exponentials composed and applied on the right of `S`. -/
theorem update_symplectic_formula :
    ∀ (R : Type) [Field R] (n : ℕ) (math : MathBackend R n)
      (params grads : List (Matrix (Fin n) (Fin n) R)) (lr : R) (i : ℕ)
      (h1 : i < params.length) (h2 : i < grads.length),
      (update_symplectic math params grads lr)[i]? =
        some (params[i] *
          (math.expm ((-lr) • (math.riemann_to_symplectic params[i] grads[i]).transpose) *
            math.expm ((-lr) • (math.riemann_to_symplectic params[i] grads[i] -
              (math.riemann_to_symplectic params[i] grads[i]).transpose)))) := by
  intro R instR n math params grads lr i h1 h2
  unfold update_symplectic
  rw [List.getElem?_append_left (by rw [List.length_zipWith]; omega)]
  rw [List.getElem?_zipWith']
  rw [List.getElem?_eq_getElem h1, List.getElem?_eq_getElem h2]
  rfl

/-- Witness for C5: a one-dimensional instance over `ℚ` with `expm A = A + 1`,
`riemann_to_symplectic S dS = S · dS`, `S = [[2]]`, `dS = [[3]]`, `η = 1`;
the stored value is `[[-10]]`. -/
theorem update_symplectic_formula_witness :
    (update_symplectic toy_backend [!![(2 : ℚ)]] [!![(3 : ℚ)]] 1)[0]? =
      some (!![(2 : ℚ)] *
        (toy_backend.expm ((-1 : ℚ) •
            (toy_backend.riemann_to_symplectic !![(2 : ℚ)] !![(3 : ℚ)]).transpose) *
          toy_backend.expm ((-1 : ℚ) •
            (toy_backend.riemann_to_symplectic !![(2 : ℚ)] !![(3 : ℚ)] -
              (toy_backend.riemann_to_symplectic !![(2 : ℚ)] !![(3 : ℚ)]).transpose)))) ∧
    (update_symplectic toy_backend [!![(2 : ℚ)]] [!![(3 : ℚ)]] 1)[0]? = some !![(-10 : ℚ)] := by
  have h := update_symplectic_formula ℚ 1 toy_backend [!![(2 : ℚ)]] [!![(3 : ℚ)]] 1 0
    (by simp) (by simp)
  refine ⟨h, ?_⟩
  rw [h]
  congr 1
  ext i j
  fin_cases i
  fin_cases j
  simp [toy_backend, Matrix.mul_apply, Matrix.one_apply, Fin.sum_univ_one, Matrix.vecHead,
    Matrix.smul_apply]
  norm_num

/-- Claim C6: at every zipped position, `update_orthogonal` stores
`O · expm(η · Dᵀ · O)` with `D = 0.5 · (dO - O · dOᵀ · O)`. -/
theorem update_orthogonal_formula :
    ∀ (R : Type) [Field R] (n : ℕ) (math : MathBackend R n)
      (params grads : List (Matrix (Fin n) (Fin n) R)) (lr : R) (i : ℕ)
      (h1 : i < params.length) (h2 : i < grads.length),
      (update_orthogonal math params grads lr)[i]? =
        some (params[i] *
          math.expm (lr •
            ((((1 : R) / 2) • (grads[i] - params[i] * (grads[i]).transpose * params[i])).transpose *
              params[i]))) := by
  intro R instR n math params grads lr i h1 h2
  unfold update_orthogonal
  rw [List.getElem?_append_left (by rw [List.length_zipWith]; omega)]
  rw [List.getElem?_zipWith']
  rw [List.getElem?_eq_getElem h1, List.getElem?_eq_getElem h2]
  rfl

/-- Witness for C6: the same toy backend, `O = [[2]]`, `dO = [[3]]`, `η = 1`;
`D = [[-9/2]]`, `Dᵀ·O = [[-9]]`, `expm` gives `[[-8]]`, stored value `[[-16]]`. -/
theorem update_orthogonal_formula_witness :
    (update_orthogonal toy_backend [!![(2 : ℚ)]] [!![(3 : ℚ)]] 1)[0]? =
      some (!![(2 : ℚ)] *
        toy_backend.expm ((1 : ℚ) •
          ((((1 : ℚ) / 2) • (!![(3 : ℚ)] - !![(2 : ℚ)] * (!![(3 : ℚ)]).transpose * !![(2 : ℚ)])).transpose *
            !![(2 : ℚ)]))) ∧
    (update_orthogonal toy_backend [!![(2 : ℚ)]] [!![(3 : ℚ)]] 1)[0]? = some !![(-16 : ℚ)] := by
  have h := update_orthogonal_formula ℚ 1 toy_backend [!![(2 : ℚ)]] [!![(3 : ℚ)]] 1 0
    (by simp) (by simp)
  refine ⟨h, ?_⟩
  rw [h]
  congr 1
  ext i j
  fin_cases i
  fin_cases j
  simp [toy_backend, Matrix.mul_apply, Matrix.one_apply, Fin.sum_univ_one, Matrix.vecHead,
    Matrix.smul_apply]
  norm_num

/-- Symplectic matrices (with respect to any form `J`) are closed under
multiplication. -/
theorem symplectic_mul {n : ℕ} (J A B : Matrix (Fin n) (Fin n) ℝ)
    (hA : A.transpose * J * A = J) (hB : B.transpose * J * B = J) :
    (A * B).transpose * J * (A * B) = J := by
  have h : (A * B).transpose * J * (A * B) = B.transpose * (A.transpose * J * A) * B := by
    rw [Matrix.transpose_mul]
    noncomm_ring
  rw [h, hA]
  exact hB

/-- The Hamiltonian (symplectic Lie algebra) condition is closed under
transposition, using only `J · J = -1`. -/
theorem hamiltonian_transpose {n : ℕ} (J Y : Matrix (Fin n) (Fin n) ℝ)
    (hJ : J * J = -1) (hY : Y.transpose * J + J * Y = 0) :
    Y.transpose.transpose * J + J * Y.transpose = 0 := by
  have h1 : Y.transpose * J = -(J * Y) := eq_neg_of_add_eq_zero_left hY
  have hYt : Y.transpose = J * Y * J := by
    calc Y.transpose = Y.transpose * (J * -J) := by rw [mul_neg, hJ, neg_neg, mul_one]
      _ = Y.transpose * J * -J := by rw [mul_assoc]
      _ = -(J * Y) * -J := by rw [h1]
      _ = J * Y * J := by noncomm_ring
  rw [Matrix.transpose_transpose, hYt]
  have h2 : J * (J * Y * J) = -(Y * J) := by
    have h3 : J * (J * Y * J) = J * J * Y * J := by noncomm_ring
    rw [h3, hJ]
    noncomm_ring
  rw [h2]
  simp

/-- The Hamiltonian condition is closed under scalar multiplication. -/
theorem hamiltonian_smul {n : ℕ} (J X : Matrix (Fin n) (Fin n) ℝ) (c : ℝ)
    (hX : X.transpose * J + J * X = 0) :
    (c • X).transpose * J + J * (c • X) = 0 := by
  rw [Matrix.transpose_smul, Matrix.smul_mul, Matrix.mul_smul, ← smul_add, hX, smul_zero]

/-- `Y - Yᵀ` is Hamiltonian whenever `Y` is. -/
theorem hamiltonian_sub_transpose {n : ℕ} (J Y : Matrix (Fin n) (Fin n) ℝ)
    (hJ : J * J = -1) (hY : Y.transpose * J + J * Y = 0) :
    (Y - Y.transpose).transpose * J + J * (Y - Y.transpose) = 0 := by
  have h2 := hamiltonian_transpose J Y hJ hY
  rw [Matrix.transpose_transpose] at h2
  calc (Y - Y.transpose).transpose * J + J * (Y - Y.transpose)
      = (Y.transpose * J + J * Y) - (Y * J + J * Y.transpose) := by
        rw [Matrix.transpose_sub, Matrix.transpose_transpose, Matrix.sub_mul, Matrix.mul_sub]
        abel
    _ = 0 := by rw [hY, h2, sub_zero]

/-- The matrix exponential of a Hamiltonian matrix is symplectic. -/
theorem exp_symplectic {n : ℕ} (J X : Matrix (Fin n) (Fin n) ℝ)
    (hJ : J * J = -1) (hX : X.transpose * J + J * X = 0) :
    (NormedSpace.exp ℝ X).transpose * J * NormedSpace.exp ℝ X = J := by
  have hJ1 : J * -J = 1 := by rw [mul_neg, hJ, neg_neg]
  have hJ2 : -J * J = 1 := by rw [neg_mul, hJ, neg_neg]
  have h1 : X.transpose * J = -(J * X) := eq_neg_of_add_eq_zero_left hX
  have hXt : X.transpose = J * -X * -J := by
    calc X.transpose = X.transpose * (J * -J) := by rw [hJ1, mul_one]
      _ = X.transpose * J * -J := by rw [mul_assoc]
      _ = -(J * X) * -J := by rw [h1]
      _ = J * -X * -J := by noncomm_ring
  have hconj : NormedSpace.exp ℝ X.transpose = J * NormedSpace.exp ℝ (-X) * -J := by
    rw [hXt]
    exact Matrix.exp_units_conj ℝ (Units.mk J (-J) hJ1 hJ2) (-X)
  calc (NormedSpace.exp ℝ X).transpose * J * NormedSpace.exp ℝ X
      = NormedSpace.exp ℝ X.transpose * J * NormedSpace.exp ℝ X := by
        rw [Matrix.exp_transpose]
    _ = J * NormedSpace.exp ℝ (-X) * -J * J * NormedSpace.exp ℝ X := by rw [hconj]
    _ = J * (NormedSpace.exp ℝ (-X) * NormedSpace.exp ℝ X) := by
        rw [mul_assoc (J * NormedSpace.exp ℝ (-X)) (-J) J, hJ2, mul_one, mul_assoc]
    _ = J * NormedSpace.exp ℝ (-X + X) := by
        rw [Matrix.exp_add_of_commute ℝ (-X) X (Commute.neg_left (Commute.refl X))]
    _ = J := by simp [NormedSpace.exp_zero]

/-- The matrix exponential of a skew-symmetric matrix is orthogonal. -/
theorem exp_orthogonal_skew {n : ℕ} (A : Matrix (Fin n) (Fin n) ℝ)
    (hA : A.transpose = -A) :
    (NormedSpace.exp ℝ A).transpose * NormedSpace.exp ℝ A = 1 := by
  rw [← Matrix.exp_transpose, hA,
    ← Matrix.exp_add_of_commute ℝ (-A) A (Commute.neg_left (Commute.refl A))]
  simp [NormedSpace.exp_zero]

/-- The projected direction `Dᵀ · O` of the orthogonal update is
skew-symmetric whenever `OᵀO = 1`. -/
theorem DtO_skew {n : ℕ} (O dO : Matrix (Fin n) (Fin n) ℝ) (c : ℝ)
    (hO : O.transpose * O = 1) :
    ((c • (dO - O * dO.transpose * O)).transpose * O).transpose =
      -((c • (dO - O * dO.transpose * O)).transpose * O) := by
  have key : (c • (dO - O * dO.transpose * O)).transpose * O =
      c • (dO.transpose * O - O.transpose * dO) := by
    rw [Matrix.transpose_smul, Matrix.smul_mul]
    congr 1
    rw [Matrix.transpose_sub, Matrix.sub_mul]
    congr 1
    rw [Matrix.transpose_mul, Matrix.transpose_mul, Matrix.transpose_transpose]
    rw [mul_assoc, mul_assoc, hO, mul_one]
  rw [key, Matrix.transpose_smul, Matrix.transpose_sub, Matrix.transpose_mul,
    Matrix.transpose_mul, Matrix.transpose_transpose, Matrix.transpose_transpose,
    ← smul_neg, neg_sub]

/-- Shape of the updated parameter lists: every element either survives
unchanged past the zipped prefix or is the image of a zipped pair. -/
theorem mem_update_shape {α β : Type} (g : α → β → α) :
    ∀ (as : List α) (bs : List β) (x : α),
      x ∈ List.zipWith g as bs ++ as.drop bs.length →
      x ∈ as.drop bs.length ∨ ∃ pr ∈ as.zip bs, x = g pr.1 pr.2 := by
  intro as
  induction as with
  | nil => intro bs x hx; simp at hx
  | cons a as ih =>
    intro bs x hx
    cases bs with
    | nil =>
      simp only [List.zipWith_nil_right, List.length_nil, List.drop_zero,
        List.nil_append] at hx
      exact Or.inl (by simpa using hx)
    | cons b bs =>
      simp only [List.zipWith_cons_cons, List.length_cons, List.drop_succ_cons,
        List.cons_append, List.mem_cons] at hx
      rcases hx with rfl | hx
      · exact Or.inr ⟨(a, b), by simp, rfl⟩
      · rcases ih bs x hx with h | ⟨pr, hpr, hfx⟩
        · exact Or.inl (by simpa [List.drop_succ_cons] using h)
        · exact Or.inr ⟨pr, by simp [hpr], hfx⟩

/-- One symplectic update step stays in the symplectic group: the per-pair
value stored by `update_symplectic` with the genuine matrix exponential. -/
theorem symplectic_step {n : ℕ} (J S Y : Matrix (Fin n) (Fin n) ℝ) (lr : ℝ)
    (hJ : J * J = -1) (hS : S.transpose * J * S = J)
    (hY : Y.transpose * J + J * Y = 0) :
    (S * (NormedSpace.exp ℝ ((-lr) • Y.transpose) *
        NormedSpace.exp ℝ ((-lr) • (Y - Y.transpose)))).transpose * J *
      (S * (NormedSpace.exp ℝ ((-lr) • Y.transpose) *
        NormedSpace.exp ℝ ((-lr) • (Y - Y.transpose)))) = J :=
  symplectic_mul J _ _ hS
    (symplectic_mul J _ _
      (exp_symplectic J _ hJ (hamiltonian_smul J _ _ (hamiltonian_transpose J _ hJ hY)))
      (exp_symplectic J _ hJ (hamiltonian_smul J _ _ (hamiltonian_sub_transpose J _ hJ hY))))

/-- One orthogonal update step stays in the orthogonal group: the per-pair
value stored by `update_orthogonal` with the genuine matrix exponential. -/
theorem orthogonal_step {n : ℕ} (O dO : Matrix (Fin n) (Fin n) ℝ) (lr : ℝ)
    (hO : O.transpose * O = 1) :
    (O * NormedSpace.exp ℝ (lr •
        ((((1 : ℝ) / 2) • (dO - O * dO.transpose * O)).transpose * O))).transpose *
      (O * NormedSpace.exp ℝ (lr •
        ((((1 : ℝ) / 2) • (dO - O * dO.transpose * O)).transpose * O))) = 1 := by
  have hskew : (lr • ((((1 : ℝ) / 2) • (dO - O * dO.transpose * O)).transpose * O)).transpose =
      -(lr • ((((1 : ℝ) / 2) • (dO - O * dO.transpose * O)).transpose * O)) := by
    rw [Matrix.transpose_smul, DtO_skew O dO ((1 : ℝ) / 2) hO, smul_neg]
  have e := exp_orthogonal_skew _ hskew
  have expand :
      (O * NormedSpace.exp ℝ (lr •
          ((((1 : ℝ) / 2) • (dO - O * dO.transpose * O)).transpose * O))).transpose *
        (O * NormedSpace.exp ℝ (lr •
          ((((1 : ℝ) / 2) • (dO - O * dO.transpose * O)).transpose * O))) =
      (NormedSpace.exp ℝ (lr •
          ((((1 : ℝ) / 2) • (dO - O * dO.transpose * O)).transpose * O))).transpose *
        (O.transpose * O) *
        NormedSpace.exp ℝ (lr •
          ((((1 : ℝ) / 2) • (dO - O * dO.transpose * O)).transpose * O)) := by
    rw [Matrix.transpose_mul]
    noncomm_ring
  rw [expand, hO, mul_one]
  exact e

/-- Claim C7: with the backend exponential being the genuine matrix
exponential, one step of `update_symplectic` keeps every parameter symplectic
(`SᵀJS = J`, for any `J` with `J·J = -1`, provided the backend's
Riemannian-to-symplectic map lands in the symplectic Lie algebra, i.e. the
tangent space named by the specification), and one step of
`update_orthogonal` keeps every parameter orthogonal (`OᵀO = 1`), exactly. -/
theorem updates_preserve_manifolds :
    (∀ (n : ℕ) (math : MathBackend ℝ n) (J : Matrix (Fin n) (Fin n) ℝ),
      (∀ A, math.expm A = NormedSpace.exp ℝ A) →
      J * J = -1 →
      ∀ (params grads : List (Matrix (Fin n) (Fin n) ℝ)) (lr : ℝ),
        (∀ S ∈ params, S.transpose * J * S = J) →
        (∀ pr ∈ params.zip grads,
          (math.riemann_to_symplectic pr.1 pr.2).transpose * J +
            J * math.riemann_to_symplectic pr.1 pr.2 = 0) →
        (update_symplectic math params grads lr).Forall
          (fun S => S.transpose * J * S = J)) ∧
    (∀ (n : ℕ) (math : MathBackend ℝ n),
      (∀ A, math.expm A = NormedSpace.exp ℝ A) →
      ∀ (params grads : List (Matrix (Fin n) (Fin n) ℝ)) (lr : ℝ),
        (∀ O ∈ params, O.transpose * O = 1) →
        (update_orthogonal math params grads lr).Forall
          (fun O => O.transpose * O = 1)) := by
  constructor
  · intro n math J hexp hJ params grads lr hparams hham
    rw [List.forall_iff_forall_mem]
    intro S hS
    unfold update_symplectic at hS
    rcases mem_update_shape _ params grads S hS with h | ⟨pr, hpr, rfl⟩
    · exact hparams S (List.drop_subset _ _ h)
    · dsimp only
      rw [hexp, hexp]
      exact symplectic_step J pr.1 (math.riemann_to_symplectic pr.1 pr.2) lr hJ
        (hparams pr.1 (List.of_mem_zip hpr).1) (hham pr hpr)
  · intro n math hexp params grads lr hparams
    rw [List.forall_iff_forall_mem]
    intro O hO
    unfold update_orthogonal at hO
    rcases mem_update_shape _ params grads O hO with h | ⟨pr, hpr, rfl⟩
    · exact hparams O (List.drop_subset _ _ h)
    · dsimp only
      rw [hexp]
      exact orthogonal_step pr.1 pr.2 lr (hparams pr.1 (List.of_mem_zip hpr).1)

/-- Witness for C7: dimension 2, the standard symplectic form, identity
parameters, zero gradients, learning rate 1, the genuine matrix exponential
as `expm` and the zero map (which is trivially in the Lie algebra) as
`riemann_to_symplectic`. -/
theorem updates_preserve_manifolds_witness :
    (update_symplectic
        (MathBackend.mk (fun A => NormedSpace.exp ℝ A)
          fun _ _ => (0 : Matrix (Fin 2) (Fin 2) ℝ))
        [(1 : Matrix (Fin 2) (Fin 2) ℝ)] [0] 1).Forall
      (fun S => S.transpose * !![(0 : ℝ), 1; -1, 0] * S = !![(0 : ℝ), 1; -1, 0]) ∧
    (update_orthogonal
        (MathBackend.mk (fun A => NormedSpace.exp ℝ A)
          fun _ _ => (0 : Matrix (Fin 2) (Fin 2) ℝ))
        [(1 : Matrix (Fin 2) (Fin 2) ℝ)] [0] 1).Forall
      (fun O => O.transpose * O = 1) := by
  have hJ : !![(0 : ℝ), 1; -1, 0] * !![(0 : ℝ), 1; -1, 0] = -1 := by
    ext i j
    fin_cases i <;> fin_cases j <;>
      simp [Matrix.mul_apply, Fin.sum_univ_two, Matrix.one_apply, Matrix.neg_apply]
  constructor
  · refine updates_preserve_manifolds.1 2 _ !![(0 : ℝ), 1; -1, 0] (fun _ => rfl) hJ
      [1] [0] 1 ?_ ?_
    · intro S hS
      simp only [List.mem_singleton] at hS
      subst hS
      simp
    · intro pr hpr
      simp
  · refine updates_preserve_manifolds.2 2 _ (fun _ => rfl) [1] [0] 1 ?_
    intro O hO
    simp only [List.mem_singleton] at hO
    subst hO
    simp

end MrMustard
